import Mathlib

/-!
Verification of the Cloudflare Learning Assistant agent.

The repository is a conversational agent: incoming message list → Sanitizer
(`cleanupMessages`) → Interceptor (`processToolCalls`) → Generation Driver
(`streamText` with `stopWhen: stepCountIs(10)`) → streamed output, plus the
tool implementations in `src/tools.ts`.

`cleanupMessages` and `processToolCalls` are imported by `server.ts` from
`./utils`, a file that is not part of the provided sources; those two
components are therefore modelled from the specification (each such
definition is marked `Modelled from the spec:`).  The generation loop lives
in the external `ai` library; only its configuration (the step bound 10) is
in the sources, so the loop is likewise modelled from the spec.  Everything
about the tools (`scheduleTask`, `cancelScheduledTask`,
`getLatestCloudflareContent`, `draftLinkedInMessage`) is translated directly
from `src/tools.ts`.
-/

namespace CFAgent

/-- Conversation roles, from the spec data model (§3). -/
inductive Role where
  | user
  | assistant
  | system
deriving DecidableEq, Repr

/-- Tool-call lifecycle states of a ToolCallPart (§3). -/
inductive PartState where
  | inputAvailable
  | outputAvailable
  | outputError
deriving DecidableEq, Repr

/-- A message part: text, tool call, or tool result (§3). -/
inductive Part where
  | text (text : String)
  | toolCall (toolCallId : String) (toolName : String) (input : String)
      (state : PartState)
  | toolResult (toolCallId : String) (output : String)
deriving DecidableEq, Repr

/-- A conversation message: id, role, ordered parts (§3; the creation
timestamp plays no role in any claim and is omitted). -/
structure Message where
  id : String
  role : Role
  parts : List Part
deriving DecidableEq, Repr

/-- A tool executor: the call input to either a returned value (`Except.ok`)
or a thrown error (`Except.error`), mirroring an `async` JS function that may
throw. -/
def Executor : Type := String → Except String String

/-- The Tool Registry as the Interceptor and Sanitizer see it: tool name to
optional auto-executor; `none` marks a confirmation-required tool (§2, §4.4). -/
def Registry : Type := String → Option Executor

/-- Does `parts` hold a ToolResultPart matching `callId`? -/
def hasMatchingResult (parts : List Part) (callId : String) : Bool :=
  parts.any fun p =>
    match p with
    | .toolResult cid _ => cid == callId
    | _ => false

/-- Does the message end with a ToolCallPart that has no matching
ToolResultPart and whose tool has no executor (requires confirmation, no
confirmation recorded)?  This is the drop condition of the Sanitizer rule
(§4.1). -/
def endsUnresolvedConfirmation (registry : Registry) (m : Message) : Bool :=
  match m.parts.getLast? with
  | some (.toolCall callId toolName _ _) =>
      !hasMatchingResult m.parts callId && (registry toolName).isNone
  | _ => false

/-- Is the trailing message of `msgs` an assistant message satisfying the
Sanitizer's drop condition? -/
def droppableTrailing (registry : Registry) (msgs : List Message) : Bool :=
  match msgs.getLast? with
  | some m => m.role == .assistant && endsUnresolvedConfirmation registry m
  | none => false

/-- Modelled from the spec: `cleanupMessages` (the Message Sanitizer,
imported by `server.ts` from `./utils`, which is absent from the sources).
Spec §4.1: "if the trailing Message is assistant-authored and ends with an
unresolved tool call for a tool whose definition requires confirmation but
no confirmation has been recorded, the whole trailing Message is dropped
(not patched)".  Pure function over its input. -/
def cleanupMessages (registry : Registry) (msgs : List Message) :
    List Message :=
  if droppableTrailing registry msgs then msgs.dropLast else msgs

/-- C1: the trailing assistant message ending in an unresolved
confirmation-required tool call is dropped whole: the Sanitizer's output is
exactly `msgs.dropLast`, so no part of that message survives. -/
theorem cleanupMessages_drops_trailing (registry : Registry)
    (msgs : List Message) (m : Message) (callId toolName input : String)
    (st : PartState)
    (hlast : msgs.getLast? = some m)
    (hrole : m.role = .assistant)
    (hend : m.parts.getLast? = some (.toolCall callId toolName input st))
    (hnores : hasMatchingResult m.parts callId = false)
    (hconf : registry toolName = none) :
    cleanupMessages registry msgs = msgs.dropLast := by
  have hcond : endsUnresolvedConfirmation registry m = true := by
    unfold endsUnresolvedConfirmation
    rw [hend]
    simp [hnores, hconf]
  unfold cleanupMessages droppableTrailing
  rw [hlast]
  simp [hrole, hcond]

/-- Witness for C1: a concrete two-message transcript whose trailing
assistant message ends in a pending call to a tool the registry does not
know; the Sanitizer keeps only the first message. -/
theorem cleanupMessages_drops_trailing_witness :
    cleanupMessages (fun _ => none)
      [⟨"u1", .user, [.text "hello"]⟩,
       ⟨"a1", .assistant,
        [.toolCall "c1" "humanApproval" "{}" .inputAvailable]⟩] =
      [⟨"u1", .user, [.text "hello"]⟩] := by
  have h := cleanupMessages_drops_trailing (fun _ => none)
    [⟨"u1", .user, [.text "hello"]⟩,
     ⟨"a1", .assistant,
      [.toolCall "c1" "humanApproval" "{}" .inputAvailable]⟩]
    ⟨"a1", .assistant, [.toolCall "c1" "humanApproval" "{}" .inputAvailable]⟩
    "c1" "humanApproval" "{}" .inputAvailable rfl rfl rfl rfl rfl
  simpa using h

/-! ### Tool Call Interceptor (`processToolCalls`) -/

/-- Modelled from the spec: error payload carried by the ToolResultPart that
the Interceptor appends when an executor throws (§4.2: "append a
ToolResultPart carrying an error payload"). -/
def errorPayload (e : String) : String := "Error: " ++ e

/-- Modelled from the spec: how the Interceptor treats one part of the last
assistant message (§4.2).  A ToolCallPart in state input-available whose tool
has an executor is run: on success the part reaches output-available and a
ToolResultPart with the returned value is produced; on throw the part reaches
output-error and a ToolResultPart with the error payload is produced.  A
call to a tool with no executor, and every other part, is left untouched and
produces nothing. -/
def runPendingCall (registry : Registry) (p : Part) : Part × List Part :=
  match p with
  | .toolCall cid name input .inputAvailable =>
      match registry name with
      | some exec =>
          match exec input with
          | .ok out =>
              (.toolCall cid name input .outputAvailable,
               [.toolResult cid out])
          | .error e =>
              (.toolCall cid name input .outputError,
               [.toolResult cid (errorPayload e)])
      | none => (p, [])
  | _ => (p, [])

/-- Modelled from the spec: the Interceptor's rewrite of the last assistant
message's part list — each part is resolved by `runPendingCall` in the order
the model emitted the calls, and the produced ToolResultParts are appended
(§3: "the Interceptor may rewrite parts of the last assistant Message in
place"; §4.2: "append a ToolResultPart"). -/
def processParts (registry : Registry) (parts : List Part) : List Part :=
  (parts.map fun p => (runPendingCall registry p).1) ++
    (parts.map fun p => (runPendingCall registry p).2).flatten

/-- Modelled from the spec: `processToolCalls` (the Tool Call Interceptor,
imported by `server.ts` from `./utils`, which is absent from the sources).
It rewrites the trailing assistant message by resolving every auto-execute
tool call (§4.2); other inputs pass through unchanged.  It is total: an
executor failure is data in the output, never a failure of the pipeline. -/
def processToolCalls (registry : Registry) (msgs : List Message) :
    List Message :=
  match msgs.getLast? with
  | some m =>
      if m.role == .assistant then
        msgs.dropLast ++ [⟨m.id, m.role, processParts registry m.parts⟩]
      else msgs
  | none => msgs

/-- Is `p` a ToolResultPart for call id `cid`? -/
def isResultFor (cid : String) (p : Part) : Bool :=
  match p with
  | .toolResult c _ => c == cid
  | _ => false

/-- Is `p` a ToolCallPart still in state input-available? -/
def isPendingCall (p : Part) : Bool :=
  match p with
  | .toolCall _ _ _ .inputAvailable => true
  | _ => false

/-- Is `p` a pending (input-available) call with id `cid` to a tool that has
an executor in `registry`? -/
def pendingAutoCallFor (registry : Registry) (cid : String) (p : Part) :
    Bool :=
  match p with
  | .toolCall c name _ .inputAvailable => c == cid && (registry name).isSome
  | _ => false

/-- The parts of the last message of a transcript ([] when empty). -/
def lastParts (msgs : List Message) : List Part :=
  match msgs.getLast? with
  | some m => m.parts
  | none => []

/-- Unfolding equation for `runPendingCall` at a pending call. -/
theorem runPendingCall_pending (registry : Registry)
    (cid name input : String) :
    runPendingCall registry (.toolCall cid name input .inputAvailable) =
      match registry name with
      | some exec =>
          match exec input with
          | .ok out =>
              (.toolCall cid name input .outputAvailable,
               [.toolResult cid out])
          | .error e =>
              (.toolCall cid name input .outputError,
               [.toolResult cid (errorPayload e)])
      | none => (.toolCall cid name input .inputAvailable, []) := rfl

theorem runPendingCall_pending_none (registry : Registry)
    (cid name input : String) (h : registry name = none) :
    runPendingCall registry (.toolCall cid name input .inputAvailable) =
      (.toolCall cid name input .inputAvailable, []) := by
  rw [runPendingCall_pending, h]

theorem runPendingCall_pending_exec (registry : Registry)
    (cid name input : String) (exec : Executor)
    (h : registry name = some exec) :
    runPendingCall registry (.toolCall cid name input .inputAvailable) =
      match exec input with
      | .ok out =>
          (.toolCall cid name input .outputAvailable, [.toolResult cid out])
      | .error e =>
          (.toolCall cid name input .outputError,
           [.toolResult cid (errorPayload e)]) := by
  rw [runPendingCall_pending, h]

theorem isResultFor_runPendingCall_fst (registry : Registry) (cid : String)
    (p : Part) :
    isResultFor cid (runPendingCall registry p).1 = isResultFor cid p := by
  cases p with
  | text t => rfl
  | toolResult c o => rfl
  | toolCall c n i st =>
      cases st with
      | inputAvailable =>
          cases hr : registry n with
          | none => rw [runPendingCall_pending_none registry c n i hr]
          | some exec =>
              rw [runPendingCall_pending_exec registry c n i exec hr]
              cases exec i with
              | ok v => rfl
              | error e => rfl
      | outputAvailable => rfl
      | outputError => rfl

theorem countP_runPendingCall_snd (registry : Registry) (cid : String)
    (p : Part) :
    List.countP (isResultFor cid) (runPendingCall registry p).2 =
      if pendingAutoCallFor registry cid p then 1 else 0 := by
  cases p with
  | text t => rfl
  | toolResult c o => rfl
  | toolCall c n i st =>
      cases st with
      | inputAvailable =>
          cases hr : registry n with
          | none =>
              rw [runPendingCall_pending_none registry c n i hr]
              simp [pendingAutoCallFor, hr]
          | some exec =>
              rw [runPendingCall_pending_exec registry c n i exec hr]
              cases exec i with
              | ok v =>
                  simp [pendingAutoCallFor, hr, isResultFor,
                    List.countP_cons]
              | error e =>
                  simp [pendingAutoCallFor, hr, isResultFor,
                    List.countP_cons]
      | outputAvailable => simp [runPendingCall, pendingAutoCallFor]
      | outputError => simp [runPendingCall, pendingAutoCallFor]

theorem countP_results_flatten (registry : Registry) (cid : String)
    (parts : List Part) :
    List.countP (isResultFor cid)
        ((parts.map fun p => (runPendingCall registry p).2).flatten) =
      List.countP (pendingAutoCallFor registry cid) parts := by
  induction parts with
  | nil => rfl
  | cons p ps ih =>
      simp only [List.map_cons, List.flatten_cons, List.countP_append,
        List.countP_cons, ih, countP_runPendingCall_snd]
      omega

theorem countP_results_map_fst (registry : Registry) (cid : String)
    (parts : List Part) :
    List.countP (isResultFor cid)
        (parts.map fun p => (runPendingCall registry p).1) =
      List.countP (isResultFor cid) parts := by
  rw [List.countP_map]
  apply List.countP_congr
  intro p _
  rw [Function.comp_apply, isResultFor_runPendingCall_fst]

/-- C2: every input-available ToolCallPart of the last assistant message
whose tool has an executor gets exactly one appended ToolResultPart (one
more result for its call id than before), carrying the returned value when
the executor succeeds and the error payload when it throws; the Interceptor
returns a full transcript either way (an executor failure is never
propagated — `processToolCalls` is a total function). -/
theorem processToolCalls_one_result_per_call (registry : Registry)
    (msgs : List Message) (m : Message) (cid name input : String)
    (exec : Executor)
    (hlast : msgs.getLast? = some m)
    (hrole : m.role = .assistant)
    (hmem : Part.toolCall cid name input .inputAvailable ∈ m.parts)
    (hexec : registry name = some exec)
    (huniq : List.countP (pendingAutoCallFor registry cid) m.parts = 1) :
    processToolCalls registry msgs =
        msgs.dropLast ++ [⟨m.id, m.role, processParts registry m.parts⟩] ∧
      List.countP (isResultFor cid) (processParts registry m.parts) =
        List.countP (isResultFor cid) m.parts + 1 ∧
      (match exec input with
       | .ok out => Part.toolResult cid out
       | .error e => Part.toolResult cid (errorPayload e)) ∈
        processParts registry m.parts := by
  refine ⟨?_, ?_, ?_⟩
  · unfold processToolCalls
    rw [hlast]
    simp [hrole]
  · unfold processParts
    rw [List.countP_append, countP_results_map_fst,
      countP_results_flatten, huniq]
  · unfold processParts
    apply List.mem_append_right
    rw [List.mem_flatten]
    refine ⟨(runPendingCall registry
      (Part.toolCall cid name input .inputAvailable)).2, ?_, ?_⟩
    · exact List.mem_map_of_mem _ hmem
    · rw [runPendingCall_pending_exec registry cid name input exec hexec]
      cases exec input with
      | ok v => simp
      | error e => simp

/-- Witness for C2: one pending call to a tool whose executor throws; the
Interceptor appends the error-payload ToolResultPart. -/
theorem processToolCalls_one_result_per_call_witness :
    Part.toolResult "c1" (errorPayload "boom") ∈
      processParts (fun _ => some fun _ => Except.error "boom")
        [Part.toolCall "c1" "fetch" "{}" PartState.inputAvailable] := by
  have h := processToolCalls_one_result_per_call
    (fun _ => some fun _ => Except.error "boom")
    [⟨"a1", .assistant,
      [Part.toolCall "c1" "fetch" "{}" .inputAvailable]⟩]
    ⟨"a1", .assistant, [Part.toolCall "c1" "fetch" "{}" .inputAvailable]⟩
    "c1" "fetch" "{}" (fun _ => Except.error "boom")
    rfl rfl (by simp) rfl (by decide)
  exact h.2.2

/-- Translated from `src/tools.ts`: `export const executions = {}` — the
map of executors for confirmation-required tools is empty, since every tool
of this repository carries its own `execute` function. -/
def executions : List (String × Executor) := []

/-- C3: a pending call to a tool with no executor is never auto-resolved —
it is still present, in state input-available, in the last message after
the Interceptor runs — and the `executions` map of this repository is
empty. -/
theorem pending_confirmation_never_auto_resolved :
    executions = [] ∧
      ∀ (registry : Registry) (msgs : List Message) (m : Message)
        (cid name input : String),
        msgs.getLast? = some m →
        registry name = none →
        Part.toolCall cid name input .inputAvailable ∈ m.parts →
        Part.toolCall cid name input .inputAvailable ∈
          lastParts (processToolCalls registry msgs) := by
  refine ⟨rfl, ?_⟩
  intro registry msgs m cid name input hlast hnone hmem
  by_cases hrole : m.role = .assistant
  · have hred : processToolCalls registry msgs =
        msgs.dropLast ++ [⟨m.id, m.role, processParts registry m.parts⟩] := by
      unfold processToolCalls
      rw [hlast]
      simp [hrole]
    rw [hred]
    have hlp : lastParts (msgs.dropLast ++
        [⟨m.id, m.role, processParts registry m.parts⟩]) =
        processParts registry m.parts := by
      unfold lastParts
      rw [List.getLast?_concat]
    rw [hlp]
    unfold processParts
    apply List.mem_append_left
    exact List.mem_map.mpr
      ⟨Part.toolCall cid name input .inputAvailable, hmem,
        by rw [runPendingCall_pending_none registry cid name input hnone]⟩
  · have hred : processToolCalls registry msgs = msgs := by
      unfold processToolCalls
      rw [hlast]
      simp [hrole]
    rw [hred]
    unfold lastParts
    rw [hlast]
    exact hmem

/-- Witness for C3: a pending call to an executor-less tool survives the
Interceptor unchanged. -/
theorem pending_confirmation_never_auto_resolved_witness :
    Part.toolCall "c1" "humanApproval" "{}" PartState.inputAvailable ∈
      lastParts (processToolCalls (fun _ => none)
        [⟨"a1", .assistant,
          [Part.toolCall "c1" "humanApproval" "{}"
            PartState.inputAvailable]⟩]) :=
  pending_confirmation_never_auto_resolved.2 (fun _ => none)
    [⟨"a1", .assistant,
      [Part.toolCall "c1" "humanApproval" "{}" .inputAvailable]⟩]
    ⟨"a1", .assistant,
      [Part.toolCall "c1" "humanApproval" "{}" .inputAvailable]⟩
    "c1" "humanApproval" "{}" rfl rfl (by simp)

theorem runPendingCall_not_pending (registry : Registry) (p : Part)
    (h : isPendingCall p = false) : runPendingCall registry p = (p, []) := by
  cases p with
  | text t => rfl
  | toolResult c o => rfl
  | toolCall c n i st =>
      cases st with
      | inputAvailable => simp [isPendingCall] at h
      | outputAvailable => rfl
      | outputError => rfl

theorem map_fst_id_of_no_pending (registry : Registry) :
    ∀ parts : List Part, (∀ p ∈ parts, isPendingCall p = false) →
      (parts.map fun p => (runPendingCall registry p).1) = parts := by
  intro parts
  induction parts with
  | nil => intro _; rfl
  | cons q qs ih =>
      intro h
      rw [List.map_cons,
        runPendingCall_not_pending registry q (h q (List.mem_cons_self q qs)),
        ih fun p hp => h p (List.mem_cons_of_mem q hp)]

theorem flatten_snd_nil_of_no_pending (registry : Registry) :
    ∀ parts : List Part, (∀ p ∈ parts, isPendingCall p = false) →
      ((parts.map fun p => (runPendingCall registry p).2).flatten) = [] := by
  intro parts
  induction parts with
  | nil => intro _; rfl
  | cons q qs ih =>
      intro h
      rw [List.map_cons, List.flatten_cons,
        runPendingCall_not_pending registry q (h q (List.mem_cons_self q qs)),
        ih fun p hp => h p (List.mem_cons_of_mem q hp)]
      rfl

/-- C5: when every tool call of the last message is already resolved (no
part is a ToolCallPart in state input-available), re-running the
Interceptor is a no-op. -/
theorem processToolCalls_noop_when_resolved (registry : Registry)
    (msgs : List Message)
    (h : ∀ p ∈ lastParts msgs, isPendingCall p = false) :
    processToolCalls registry msgs = msgs := by
  cases hlast : msgs.getLast? with
  | none =>
      unfold processToolCalls
      rw [hlast]
  | some m =>
      have hne : msgs ≠ [] := by
        intro hnil
        rw [hnil] at hlast
        simp at hlast
      have hparts : ∀ p ∈ m.parts, isPendingCall p = false := by
        intro p hp
        apply h
        unfold lastParts
        rw [hlast]
        exact hp
      by_cases hrole : m.role = .assistant
      · have hred : processToolCalls registry msgs =
            msgs.dropLast ++
              [⟨m.id, m.role, processParts registry m.parts⟩] := by
          unfold processToolCalls
          rw [hlast]
          simp [hrole]
        rw [hred]
        have hpp : processParts registry m.parts = m.parts := by
          unfold processParts
          rw [map_fst_id_of_no_pending registry m.parts hparts,
            flatten_snd_nil_of_no_pending registry m.parts hparts,
            List.append_nil]
        rw [hpp]
        rw [List.getLast?_eq_getLast msgs hne] at hlast
        have hm : msgs.getLast hne = m := by injection hlast
        subst hm
        exact List.dropLast_append_getLast hne
      · have hred : processToolCalls registry msgs = msgs := by
          unfold processToolCalls
          rw [hlast]
          simp [hrole]
        exact hred

/-- Witness for C5: a transcript whose last assistant message holds a
resolved call (state output-available plus its result part) passes through
the Interceptor unchanged. -/
theorem processToolCalls_noop_witness :
    processToolCalls (fun _ => none)
      [⟨"a1", .assistant,
        [Part.toolCall "c1" "fetch" "{}" PartState.outputAvailable,
         Part.toolResult "c1" "ok"]⟩] =
      [⟨"a1", .assistant,
        [Part.toolCall "c1" "fetch" "{}" PartState.outputAvailable,
         Part.toolResult "c1" "ok"]⟩] :=
  processToolCalls_noop_when_resolved (fun _ => none)
    [⟨"a1", .assistant,
      [Part.toolCall "c1" "fetch" "{}" PartState.outputAvailable,
       Part.toolResult "c1" "ok"]⟩]
    (by decide)

/-! ### Idempotence of the Sanitizer -/

theorem cleanupMessages_eq_of_not_droppable (registry : Registry)
    (msgs : List Message)
    (h : droppableTrailing registry msgs = false) :
    cleanupMessages registry msgs = msgs := by
  unfold cleanupMessages
  rw [h]
  simp

/-- C4 counterexample: on a transcript whose last two messages are both
assistant messages ending in an unresolved confirmation-required call, one
Sanitizer pass drops only the trailing message, and a second pass drops
another one — `Sanitizer(Sanitizer(m)) ≠ Sanitizer(m)`. -/
theorem cleanupMessages_not_idempotent :
    cleanupMessages (fun _ => none)
        (cleanupMessages (fun _ => none)
          [⟨"a1", .assistant,
            [.toolCall "c1" "humanApproval" "{}" .inputAvailable]⟩,
           ⟨"a2", .assistant,
            [.toolCall "c2" "humanApproval" "{}" .inputAvailable]⟩]) ≠
      cleanupMessages (fun _ => none)
        [⟨"a1", .assistant,
          [.toolCall "c1" "humanApproval" "{}" .inputAvailable]⟩,
         ⟨"a2", .assistant,
          [.toolCall "c2" "humanApproval" "{}" .inputAvailable]⟩] := by
  decide

/-- C4 (amended): the Sanitizer is a pure function of its input, and
`Sanitizer(Sanitizer(m)) = Sanitizer(m)` holds whenever the output of the
single pass does not itself end in a droppable trailing assistant message —
in particular whenever at most the final message of `m` is malformed. -/
theorem cleanupMessages_idempotent_when_output_clean (registry : Registry)
    (msgs : List Message)
    (h : droppableTrailing registry (cleanupMessages registry msgs) = false) :
    cleanupMessages registry (cleanupMessages registry msgs) =
      cleanupMessages registry msgs :=
  cleanupMessages_eq_of_not_droppable registry (cleanupMessages registry msgs) h

/-- Witness for the amended C4: a transcript ending in a resolved assistant
message is a fixed point of the Sanitizer, twice. -/
theorem cleanupMessages_idempotent_witness :
    cleanupMessages (fun _ => none)
      (cleanupMessages (fun _ => none)
        [⟨"u1", .user, [.text "hi"]⟩,
         ⟨"a1", .assistant, [.text "hello"]⟩]) =
      cleanupMessages (fun _ => none)
        [⟨"u1", .user, [.text "hi"]⟩,
         ⟨"a1", .assistant, [.text "hello"]⟩] :=
  cleanupMessages_idempotent_when_output_clean (fun _ => none)
    [⟨"u1", .user, [.text "hi"]⟩, ⟨"a1", .assistant, [.text "hello"]⟩]
    (by decide)

/-! ### Generation Driver -/

/-- Modelled from the spec: the outcome of one model step (§4.3) — the model
either finishes with text or requests further tool calls. -/
inductive StepOutcome where
  | finalText (t : String)
  | toolRequests (parts : List Part)

/-- Modelled from the spec: the Generation Driver's model⇄tool loop (§4.3),
implemented by `streamText` of the external `ai` library.  Each round trip
appends the assistant turn; when it contains tool requests they are handed
back through the Interceptor and generation resumes, until a final text or
the step bound.  Returns the number of model⇄tool round trips performed and
the final transcript. -/
def driveLoop (registry : Registry) (modelStep : List Message → StepOutcome) :
    Nat → List Message → Nat × List Message
  | 0, msgs => (0, msgs)
  | Nat.succ b, msgs =>
      match modelStep msgs with
      | .finalText t => (1, msgs ++ [⟨"gen", .assistant, [.text t]⟩])
      | .toolRequests parts =>
          let next := processToolCalls registry
            (msgs ++ [⟨"gen", .assistant, parts⟩])
          let r := driveLoop registry modelStep b next
          (r.1 + 1, r.2)

/-- The step bound configured in `server.ts`: `stopWhen: stepCountIs(10)`. -/
def stepBound : Nat := 10

/-- A chat turn as configured by this program: the driver loop under the
step bound 10. -/
def runChatTurn (registry : Registry)
    (modelStep : List Message → StepOutcome) (msgs : List Message) :
    Nat × List Message :=
  driveLoop registry modelStep stepBound msgs

theorem driveLoop_steps_le (registry : Registry)
    (modelStep : List Message → StepOutcome) :
    ∀ (bound : Nat) (msgs : List Message),
      (driveLoop registry modelStep bound msgs).1 ≤ bound := by
  intro bound
  induction bound with
  | zero => intro msgs; exact Nat.le_refl 0
  | succ b ih =>
      intro msgs
      unfold driveLoop
      cases modelStep msgs with
      | finalText t => simp
      | toolRequests parts =>
          simp only []
          exact Nat.succ_le_succ (ih _)

/-- C6: with the configured bound `stepCountIs(10)`, no chat turn performs
more than 10 model⇄tool round trips, whatever the model and the registry do
— even a model that keeps emitting tool calls is forced to stop at the
bound (the loop is total and its fuel is the bound). -/
theorem chat_turn_at_most_ten_steps (registry : Registry)
    (modelStep : List Message → StepOutcome) (msgs : List Message) :
    (runChatTurn registry modelStep msgs).1 ≤ 10 :=
  driveLoop_steps_le registry modelStep stepBound msgs

/-! ### Scheduling tools (`src/tools.ts`) -/

/-- The trigger union accepted by `scheduleTask` (`scheduleSchema` of
`agents/schedule`): absolute date, delay in seconds, cron expression, or
the explicit no-schedule marker. -/
inductive ScheduleWhen where
  | noSchedule
  | scheduled (date : String)
  | delayed (delayInSeconds : Int)
  | cron (cron : String)
deriving DecidableEq, Repr

/-- The value handed to `agent.schedule`: `when.date`, `when.delayInSeconds`
or `when.cron` (`src/tools.ts` lines 337-344). -/
inductive ScheduleInput where
  | date (d : String)
  | delay (n : Int)
  | cronExpr (c : String)
deriving DecidableEq, Repr

/-- The string `when.type` of a trigger. -/
def whenTypeName : ScheduleWhen → String
  | .noSchedule => "no-schedule"
  | .scheduled _ => "scheduled"
  | .delayed _ => "delayed"
  | .cron _ => "cron"

/-- String rendering of the schedule input (template-literal interpolation
in the success message). -/
def scheduleInputString : ScheduleInput → String
  | .date d => d
  | .delay n => toString n
  | .cronExpr c => c

/-- The try/catch around `agent.schedule` in `scheduleTask`
(`src/tools.ts` lines 345-351): the host call either succeeds or throws,
and a throw becomes the returned error string. -/
def scheduleAttempt (agentSchedule : ScheduleInput → String → Except String Unit)
    (typeName : String) (input : ScheduleInput) (description : String) :
    String :=
  match agentSchedule input description with
  | .ok _ =>
      "Task scheduled for type \"" ++ typeName ++ "\" : " ++
        scheduleInputString input
  | .error e => "Error scheduling task: " ++ e

/-- Translated from `src/tools.ts` lines 326-353 (`scheduleTask.execute`).
The host `agent.schedule` (which may throw) is abstracted as the
`agentSchedule` parameter.  The trigger union of `scheduleSchema` rules out
any trigger type other than the four modelled constructors, so the
`throwError` arm of the source is unreachable and the function is total:
every outcome is a returned string. -/
def scheduleTask (agentSchedule : ScheduleInput → String → Except String Unit)
    (when : ScheduleWhen) (description : String) : String :=
  match when with
  | .noSchedule => "Not a valid schedule input"
  | .scheduled d => scheduleAttempt agentSchedule "scheduled" (.date d) description
  | .delayed n => scheduleAttempt agentSchedule "delayed" (.delay n) description
  | .cron c => scheduleAttempt agentSchedule "cron" (.cronExpr c) description

/-- Translated from `src/tools.ts` lines 373-388
(`cancelScheduledTask.execute`); the host `agent.cancelSchedule` (which may
throw, e.g. on an unknown task id) is abstracted as the `agentCancel`
parameter. -/
def cancelScheduledTask (agentCancel : String → Except String Unit)
    (taskId : String) : String :=
  match agentCancel taskId with
  | .ok _ => "Task " ++ taskId ++ " has been successfully canceled."
  | .error e => "Error canceling task " ++ taskId ++ ": " ++ e

/-- C8: scheduling errors are returned as tool-result strings, never
raised: the no-schedule trigger yields the invalid-input string, a throwing
`agent.schedule` (e.g. an invalid cron expression) yields the
error-prefixed string, and a throwing `agent.cancelSchedule` (unknown task
id) yields the cancellation-error string.  All three execute functions are
total String-valued functions, so the error can only reach the model and
the user as data and the chat turn completes normally. -/
theorem scheduling_errors_returned_as_strings :
    (∀ (agentSchedule : ScheduleInput → String → Except String Unit)
        (description : String),
      scheduleTask agentSchedule .noSchedule description =
        "Not a valid schedule input") ∧
    (∀ (agentSchedule : ScheduleInput → String → Except String Unit)
        (c description e : String),
      agentSchedule (.cronExpr c) description = .error e →
      scheduleTask agentSchedule (.cron c) description =
        "Error scheduling task: " ++ e) ∧
    (∀ (agentCancel : String → Except String Unit) (taskId e : String),
      agentCancel taskId = .error e →
      cancelScheduledTask agentCancel taskId =
        "Error canceling task " ++ taskId ++ ": " ++ e) := by
  refine ⟨fun _ _ => rfl, ?_, ?_⟩
  · intro agentSchedule c description e h
    simp only [scheduleTask, scheduleAttempt]
    rw [h]
  · intro agentCancel taskId e h
    unfold cancelScheduledTask
    rw [h]

/-- Witness for C8: a host scheduler that rejects the cron expression makes
the tool return the error string. -/
theorem scheduling_errors_returned_as_strings_witness :
    scheduleTask (fun _ _ => Except.error "Invalid cron expression")
        (.cron "not a cron") "check blog" =
      "Error scheduling task: Invalid cron expression" :=
  scheduling_errors_returned_as_strings.2.1
    (fun _ _ => Except.error "Invalid cron expression")
    "not a cron" "check blog" "Invalid cron expression" rfl

/-! ### `getLatestCloudflareContent` (`src/tools.ts` lines 15-95) -/

/-- The suffix after the first `>` of the list, when present: the extent
the regex `<[^>]*>` consumes after its opening `<` (the character class
cannot cross a `>`, so the match always ends at the first `>`). -/
def afterGt : List Char → Option (List Char)
  | [] => none
  | c :: cs => if c = '>' then some cs else afterGt cs

/-- `replace(/<[^>]*>/g, '')` on a character list, with explicit fuel (the
initial length bounds the number of steps): a `<` with a later `>` is
removed together with everything up to that `>`; a `<` with no closing `>`
matches nothing and stays. -/
def stripTagsFuel : Nat → List Char → List Char
  | 0, l => l
  | _ + 1, [] => []
  | fuel + 1, c :: cs =>
      if c = '<' then
        match afterGt cs with
        | some rest => stripTagsFuel fuel rest
        | none => c :: stripTagsFuel fuel cs
      else c :: stripTagsFuel fuel cs

/-- `s.replace(/<[^>]*>/g, '')`. -/
def stripTags (s : String) : String :=
  ⟨stripTagsFuel s.data.length s.data⟩

/-- `s.substring(0, n)`. -/
def substringTo (n : Nat) (s : String) : String :=
  ⟨s.data.take n⟩

/-- `s.toLowerCase()`. -/
def lowerStr (s : String) : String :=
  ⟨s.data.map Char.toLower⟩

/-- Is the first list a leading segment of the second? -/
def leadsList : List Char → List Char → Bool
  | [], _ => true
  | _ :: _, [] => false
  | a :: as, b :: bs => a == b && leadsList as bs

/-- `hay.includes(needle)` on character lists: the needle leads some tail
of the haystack. -/
def includesCh (hay needle : List Char) : Bool :=
  hay.tails.any fun suffix => leadsList needle suffix

/-- `hay.includes(needle)` for strings. -/
def strIncludes (hay needle : String) : Bool :=
  includesCh hay.data needle.data

/-- The topic filter of `getLatestCloudflareContent` (`src/tools.ts` lines
53-58): when a topic is given, the lowercased `"title description"`
concatenation must contain the lowercased topic. -/
def passesTopic (topic : Option String) (title description : String) : Bool :=
  match topic with
  | none => true
  | some t => strIncludes (lowerStr (title ++ " " ++ description)) (lowerStr t)

/-- One `<item>` of the RSS feed after the per-field regex extraction
(`src/tools.ts` lines 42-46); each capture is optional.  The scan of the
XML by the item regex is abstracted: a fetched feed is the ordered list of
capture records the regex yields. -/
structure RawItem where
  title : Option String
  link : Option String
  pubDate : Option String
  description : Option String
  author : Option String
deriving DecidableEq, Repr

/-- `descMatch ? descMatch[1].replace(/<[^>]*>/g, '').substring(0, 200) :
''` (`src/tools.ts` line 50). -/
def itemDescription (raw : Option String) : String :=
  match raw with
  | some d => substringTo 200 (stripTags d)
  | none => ""

/-- The record pushed into `items` (`src/tools.ts` lines 60-66); its
`description` field already carries the appended `"..."`. -/
structure FeedItem where
  title : String
  link : String
  date : String
  description : String
  author : Option String
deriving DecidableEq, Repr

/-- The collection loop of `getLatestCloudflareContent` (`src/tools.ts`
lines 38-68): while the item regex yields matches and `items.length <
count`, extract the fields, require title and link, apply the topic filter
(`continue` on failure), and push the item. -/
def collectItems (count : Nat) (topic : Option String) :
    List RawItem → List FeedItem → List FeedItem
  | [], acc => acc
  | r :: rs, acc =>
      if acc.length < count then
        match r.title, r.link with
        | some t, some l =>
            let description := itemDescription r.description
            if passesTopic topic t description then
              collectItems count topic rs
                (acc ++ [⟨t, l, r.pubDate.getD "Unknown date",
                  description ++ "...", r.author⟩])
            else collectItems count topic rs acc
        | _, _ => collectItems count topic rs acc
      else acc

/-- A numbered post of the returned payload (`src/tools.ts` lines 80-87). -/
structure Post where
  position : Nat
  title : String
  url : String
  publishDate : String
  summary : String
  author : Option String
deriving DecidableEq, Repr

/-- `items.map((item, i) => ({position: i + 1, ...}))`, with the running
index made explicit. -/
def numberPosts : List FeedItem → Nat → List Post
  | [], _ => []
  | it :: rest, i =>
      ⟨i + 1, it.title, it.link, it.date, it.description, it.author⟩ ::
        numberPosts rest (i + 1)

/-- The structured success payload (`src/tools.ts` lines 76-89). -/
structure ContentResult where
  source : String
  topic : String
  count : Nat
  posts : List Post
  suggestion : String
deriving DecidableEq, Repr

/-- A tool outcome of `getLatestCloudflareContent`: either one of its
returned message strings or the structured payload. -/
inductive FetchOutcome where
  | message (s : String)
  | content (r : ContentResult)
deriving DecidableEq, Repr

/-- The no-results strings (`src/tools.ts` lines 70-74). -/
def noResultsMessage (topic : Option String) : String :=
  match topic with
  | some t =>
      "No recent posts found about \"" ++ t ++
        "\". Try a broader topic or remove the filter."
  | none => "Unable to fetch recent posts. Please try again."

/-- The fixed suggestion string of the success payload. -/
def suggestionText : String :=
  "Pick a post that interests you and I can explain it in detail, or ask me to search for more specific topics!"

/-- Translated from `src/tools.ts` lines 15-95
(`getLatestCloudflareContent.execute`) on a successfully fetched feed: the
HTTP fetch and the item-regex scan of the XML are abstracted into the
`feed` argument (the ordered per-item captures); everything from the
collection loop on is modelled literally. -/
def getLatestCloudflareContent (count : Nat) (topic : Option String)
    (feed : List RawItem) : FetchOutcome :=
  let items := collectItems count topic feed []
  if items.length = 0 then
    .message (noResultsMessage topic)
  else
    .content ⟨"Cloudflare Blog", topic.getD "All topics", items.length,
      numberPosts items 0, suggestionText⟩

/-- What the collection loop guarantees about every item it pushes: the
stored description is some string with `"..."` appended, and when a topic
was given, the lowercased `"title description"` concatenation (the text the
filter inspected) contains the lowercased topic. -/
def GoodItem (topic : Option String) (it : FeedItem) : Prop :=
  ∃ d, it.description = d ++ "..." ∧
    ∀ t, topic = some t →
      strIncludes (lowerStr (it.title ++ " " ++ d)) (lowerStr t) = true

theorem collectItems_length_le (count : Nat) (topic : Option String) :
    ∀ (feed : List RawItem) (acc : List FeedItem), acc.length ≤ count →
      (collectItems count topic feed acc).length ≤ count := by
  intro feed
  induction feed with
  | nil => intro acc h; exact h
  | cons r rs ih =>
      intro acc h
      rw [collectItems]
      by_cases hlt : acc.length < count
      · rw [if_pos hlt]
        have hpush : (acc ++ [(⟨r.title.getD "", r.link.getD "",
            r.pubDate.getD "Unknown date",
            itemDescription r.description ++ "...", r.author⟩ :
              FeedItem)]).length ≤ count := by
          rw [List.length_append]
          simpa using hlt
        cases ht : r.title with
        | none => exact ih acc h
        | some t =>
            cases hl : r.link with
            | none => exact ih acc h
            | some l =>
                by_cases hp : passesTopic topic t
                    (itemDescription r.description)
                · simp only [hp, if_pos]
                  apply ih
                  rw [List.length_append]
                  simpa using hlt
                · simp only [hp, if_neg, Bool.false_eq_true,
                    not_false_eq_true]
                  exact ih acc h
      · rw [if_neg hlt]
        exact h

theorem collectItems_good (count : Nat) (topic : Option String) :
    ∀ (feed : List RawItem) (acc : List FeedItem),
      (∀ x ∈ acc, GoodItem topic x) →
      ∀ x ∈ collectItems count topic feed acc, GoodItem topic x := by
  intro feed
  induction feed with
  | nil => intro acc hacc; exact hacc
  | cons r rs ih =>
      intro acc hacc
      rw [collectItems]
      by_cases hlt : acc.length < count
      · rw [if_pos hlt]
        cases ht : r.title with
        | none => exact ih acc hacc
        | some t =>
            cases hl : r.link with
            | none => exact ih acc hacc
            | some l =>
                by_cases hp : passesTopic topic t
                    (itemDescription r.description)
                · simp only [hp, if_pos]
                  apply ih
                  intro x hx
                  rcases List.mem_append.mp hx with hx | hx
                  · exact hacc x hx
                  · have hx' : x = ⟨t, l, r.pubDate.getD "Unknown date",
                        itemDescription r.description ++ "...", r.author⟩ := by
                      simpa using hx
                    subst hx'
                    refine ⟨itemDescription r.description, rfl, ?_⟩
                    intro t' ht'
                    rw [ht'] at hp
                    exact hp
                · simp only [hp, if_neg, Bool.false_eq_true,
                    not_false_eq_true]
                  exact ih acc hacc
      · rw [if_neg hlt]
        exact hacc

theorem numberPosts_length :
    ∀ (items : List FeedItem) (i : Nat),
      (numberPosts items i).length = items.length := by
  intro items
  induction items with
  | nil => intro i; rfl
  | cons it rest ih => intro i; simp [numberPosts, ih]

theorem numberPosts_get_position :
    ∀ (items : List FeedItem) (i j : Nat)
      (hj : j < (numberPosts items i).length),
      ((numberPosts items i).get ⟨j, hj⟩).position = i + j + 1 := by
  intro items
  induction items with
  | nil => intro i j hj; simp [numberPosts] at hj
  | cons it rest ih =>
      intro i j hj
      cases j with
      | zero => rfl
      | succ j' =>
          have := ih (i + 1) j' (by
            simpa [numberPosts] using Nat.lt_of_succ_lt_succ (by
              simpa [numberPosts] using hj))
          simp only [numberPosts, List.get_cons_succ]
          rw [this]
          omega

theorem numberPosts_mem :
    ∀ (items : List FeedItem) (i : Nat) (p : Post),
      p ∈ numberPosts items i →
      ∃ it ∈ items, p.title = it.title ∧ p.summary = it.description := by
  intro items
  induction items with
  | nil => intro i p hp; simp [numberPosts] at hp
  | cons it rest ih =>
      intro i p hp
      rcases List.mem_cons.mp hp with hp | hp
      · exact ⟨it, List.mem_cons_self it rest, by rw [hp], by rw [hp]⟩
      · obtain ⟨it', hit', h1, h2⟩ := ih (i + 1) p hp
        exact ⟨it', List.mem_cons_of_mem it hit', h1, h2⟩

/-- C9 counterexample: with topic `"i n"` and a feed item titled `"AI"`
described `"news"`, the post is returned (the code filters on the
concatenation `"title description"`, which the topic straddles), yet the
topic occurs case-insensitively neither in the post's title nor in its
description/summary — refuting the claim as stated. -/
theorem getLatestCloudflareContent_topic_straddles_boundary :
    getLatestCloudflareContent 5 (some "i n")
        [⟨some "AI", some "L", none, some "news", none⟩] =
      .content ⟨"Cloudflare Blog", "i n", 1,
        [⟨1, "AI", "L", "Unknown date", "news...", none⟩],
        suggestionText⟩ ∧
      strIncludes (lowerStr "AI") (lowerStr "i n") = false ∧
      strIncludes (lowerStr "news") (lowerStr "i n") = false ∧
      strIncludes (lowerStr "news...") (lowerStr "i n") = false :=
  ⟨by decide, by decide, by decide, by decide⟩

/-- C9 (amended): on a fetched feed, a structured result holds at most
`count` posts, never zero posts (the no-item case returns the no-results
message string instead), positions are consecutive from 1, and for a given
topic every returned post contains the topic case-insensitively in the
space-separated concatenation of its title and its summary text (the
summary without the appended `"..."`) — though not necessarily in either
field alone. -/
theorem getLatestCloudflareContent_post_properties (count : Nat)
    (topic : Option String) (feed : List RawItem) :
    (∀ r, getLatestCloudflareContent count topic feed = .content r →
      r.posts.length ≤ count ∧
      r.posts ≠ [] ∧
      (∀ j (hj : j < r.posts.length),
        (r.posts.get ⟨j, hj⟩).position = j + 1) ∧
      (∀ t, topic = some t → ∀ p ∈ r.posts,
        ∃ d, p.summary = d ++ "..." ∧
          strIncludes (lowerStr (p.title ++ " " ++ d)) (lowerStr t) =
            true)) ∧
    (∀ s, getLatestCloudflareContent count topic feed = .message s →
      s = noResultsMessage topic) := by
  constructor
  · intro r hr
    unfold getLatestCloudflareContent at hr
    by_cases hz : (collectItems count topic feed []).length = 0
    · rw [if_pos hz] at hr
      exact absurd hr (by simp)
    · rw [if_neg hz] at hr
      have hr' : r = ⟨"Cloudflare Blog", topic.getD "All topics",
          (collectItems count topic feed []).length,
          numberPosts (collectItems count topic feed []) 0,
          suggestionText⟩ := by
        cases hr
        rfl
      subst hr'
      refine ⟨?_, ?_, ?_, ?_⟩
      · simp only [numberPosts_length]
        exact collectItems_length_le count topic feed [] (Nat.zero_le count)
      · intro hnil
        apply hz
        have hlen := numberPosts_length (collectItems count topic feed []) 0
        have hnil' : numberPosts (collectItems count topic feed []) 0 = [] :=
          hnil
        rw [hnil'] at hlen
        simpa using hlen.symm
      · intro j hj
        rw [numberPosts_get_position]
        omega
      · intro t ht p hp
        obtain ⟨it, hit, h1, h2⟩ :=
          numberPosts_mem (collectItems count topic feed []) 0 p hp
        obtain ⟨d, hd, hinc⟩ :=
          collectItems_good count topic feed []
            (by intro x hx; simp at hx) it hit
        refine ⟨d, ?_, ?_⟩
        · rw [h2, hd]
        · rw [h1]
          exact hinc t ht
  · intro s hs
    unfold getLatestCloudflareContent at hs
    by_cases hz : (collectItems count topic feed []).length = 0
    · rw [if_pos hz] at hs
      have := FetchOutcome.message.injEq (noResultsMessage topic) s
      cases hs
      rfl
    · rw [if_neg hz] at hs
      exact absurd hs (by simp)

/-- Witness for the amended C9: a feed item titled "AI news", topic "ai" —
the theorem yields the topic-containment fact for the single returned
post. -/
theorem getLatestCloudflareContent_post_properties_witness :
    ∃ d, ("d..." : String) = d ++ "..." ∧
      strIncludes (lowerStr ("AI news" ++ " " ++ d)) (lowerStr "ai") =
        true := by
  have h := (getLatestCloudflareContent_post_properties 5 (some "ai")
    [⟨some "AI news", some "L", none, some "d", none⟩]).1
    ⟨"Cloudflare Blog", "ai", 1,
      [⟨1, "AI news", "L", "Unknown date", "d...", none⟩], suggestionText⟩
    (by decide)
  exact h.2.2.2 "ai" rfl
    ⟨1, "AI news", "L", "Unknown date", "d...", none⟩ (by simp)

/-! ### `draftLinkedInMessage` (`src/tools.ts` lines 224-268) -/

/-- The structured draft returned by `draftLinkedInMessage`
(`src/tools.ts` lines 254-266). -/
structure LinkedInDraft where
  authorName : String
  articleTitle : String
  articleUrl : String
  message : String
  tips : List String
  shortVersion : String
deriving DecidableEq, Repr

/-- `authorName.split(' ')[0]` (`src/tools.ts` line 235): the portion of
the name before its first space (the whole name when it has none). -/
def firstNameOf (s : String) : String :=
  ⟨s.data.takeWhile fun c => c != ' '⟩

/-- Translated from `src/tools.ts` lines 224-268
(`draftLinkedInMessage.execute`): a pure template — no fetch, no host call
— that always returns the structured draft.  The `message` is accumulated
exactly as the source's `+=` chain. -/
def draftLinkedInMessage (authorName articleTitle articleUrl : String)
    (userQuestion userBackground : Option String) : LinkedInDraft :=
  let firstName := firstNameOf authorName
  let m1 := "Hi " ++ firstName ++ ",\n\n"
  let m2 := m1 ++ ("I recently read your article \"" ++ articleTitle ++
    "\" and found it really insightful. ")
  let m3 :=
    match userBackground with
    | some b => m2 ++ (b ++ " ")
    | none => m2
  let m4 :=
    match userQuestion with
    | some q =>
        m3 ++ ("\n\nI have a question that I couldn\x27t find answered in the article: " ++
          q ++ "\n\n") ++
          "Would you be open to sharing your thoughts or pointing me to additional resources?\n\n"
    | none =>
        m3 ++ "I\x27d love to connect and learn more about your work at Cloudflare.\n\n"
  let message := m4 ++ "Thanks for sharing your knowledge with the community!\n\n" ++
    "Best regards"
  { authorName := authorName
    articleTitle := articleTitle
    articleUrl := articleUrl
    message := message
    tips := [
      "Keep it under 300 characters for a connection request (LinkedIn limit)",
      "Personalize further based on their LinkedIn profile",
      "Be specific about what you found interesting",
      "Show genuine curiosity, not just self-promotion"]
    shortVersion := "Hi " ++ firstName ++
      (", I really enjoyed your article \"" ++ articleTitle ++
        "\" and would love to connect to learn more about your work at Cloudflare. Thanks for sharing your insights with the community!") }

theorem append_left_extract (a s t : String) (h : ∃ r, s = a ++ r) :
    ∃ r, s ++ t = a ++ r := by
  obtain ⟨r, hr⟩ := h
  exact ⟨r ++ t, by rw [hr, String.append_assoc]⟩

theorem append_mid_extract (a s t : String)
    (h : ∃ pre post, s = pre ++ a ++ post) :
    ∃ pre post, s ++ t = pre ++ a ++ post := by
  obtain ⟨pre, post, hr⟩ := h
  exact ⟨pre, post ++ t, by rw [hr, String.append_assoc]⟩

/-- C10: `draftLinkedInMessage` is a total pure function (it never fails
and performs no external call — its type is a plain function into
`LinkedInDraft`, never an error string) whose `message` starts with
`"Hi "` followed by the portion of the author's name before its first
space, contains the article title, and ends with `"Best regards"`; being a
function, the same input always yields the same output. -/
theorem draftLinkedInMessage_structure
    (authorName articleTitle articleUrl : String)
    (userQuestion userBackground : Option String) :
    (∃ rest,
      (draftLinkedInMessage authorName articleTitle articleUrl
        userQuestion userBackground).message =
        "Hi " ++ firstNameOf authorName ++ rest) ∧
    (∃ pre post,
      (draftLinkedInMessage authorName articleTitle articleUrl
        userQuestion userBackground).message =
        pre ++ articleTitle ++ post) ∧
    (∃ pre,
      (draftLinkedInMessage authorName articleTitle articleUrl
        userQuestion userBackground).message =
        pre ++ "Best regards") ∧
    firstNameOf authorName =
      ⟨authorName.data.takeWhile fun c => c != ' '⟩ ∧
    draftLinkedInMessage authorName articleTitle articleUrl
        userQuestion userBackground =
      draftLinkedInMessage authorName articleTitle articleUrl
        userQuestion userBackground := by
  refine ⟨?_, ?_, ?_, rfl, rfl⟩
  · cases userQuestion <;> cases userBackground <;>
      (simp only [draftLinkedInMessage]
       repeat'
         first
         | exact ⟨",\n\n", rfl⟩
         | apply append_left_extract)
  · have base : ∃ pre post,
        ("Hi " ++ firstNameOf authorName ++ ",\n\n") ++
            ("I recently read your article \"" ++ articleTitle ++
              "\" and found it really insightful. ") =
          pre ++ articleTitle ++ post :=
      ⟨"Hi " ++ firstNameOf authorName ++ ",\n\n" ++
          "I recently read your article \"",
        "\" and found it really insightful. ",
        by simp only [String.append_assoc]⟩
    cases userQuestion with
    | none =>
        cases userBackground with
        | none =>
            simp only [draftLinkedInMessage]
            iterate 3 apply append_mid_extract
            exact base
        | some b =>
            simp only [draftLinkedInMessage]
            iterate 4 apply append_mid_extract
            exact base
    | some q =>
        cases userBackground with
        | none =>
            simp only [draftLinkedInMessage]
            iterate 4 apply append_mid_extract
            exact base
        | some b =>
            simp only [draftLinkedInMessage]
            iterate 5 apply append_mid_extract
            exact base
  · cases userQuestion <;> cases userBackground <;> exact ⟨_, rfl⟩

end CFAgent
